import Mathlib

/-!
# Continuum — verification of the decision-lifecycle / scope / enforcement spec

Shallow embedding of the Continuum repository's scope parser (console UI
utils), the v0.1 → v0.2 schema migration function (contracts), and the
spec-described decision engine (lifecycle state machine, enforcement engine,
resolve/ambiguity gate, supersession coordinator over an abstract store).

Strings are embedded as Lean `String` (engine level) or `List Char`
(character-level scope parsing, mirroring JavaScript string indexing).
-/

namespace Continuum

/-- Characters of a string literal (JS strings are indexed by code unit;
all inputs here are ASCII so `Char` lists are faithful). -/
def cl (s : String) : List Char := s.data

/-! ## Scope model: `parseScope` from the console UI utils (source embedding) -/

/-- A single level parsed from a chained scope string
(`ScopeLevel` in the UI utils). -/
structure ScopeLevel where
  type : List Char
  value : List Char
  level : Nat
  specificity : Nat
deriving DecidableEq, Repr

/-- Known scope prefixes, in source order (`KNOWN_PREFIXES`). -/
def KNOWN_PREFIXES : List (List Char) :=
  [cl "repo:", cl "folder:", cl "user:", cl "workflow:", cl "team:"]

/-- Does `pat` occur in `s` starting at index `i`? (JS `indexOf` hit test). -/
def matchesAt (pat s : List Char) (i : Nat) : Bool :=
  pat.isPrefixOf (s.drop i)

/-- First index `≥ start` at which `pat` occurs in `s` (JS `indexOf(pat, start)`;
`none` models `-1`). -/
def firstMatchFrom (pat s : List Char) (start : Nat) : Option Nat :=
  (List.range (s.length + 1)).find? (fun i => decide (start ≤ i) && matchesAt pat s i)

/-- The `while (true) { idx = scope.indexOf(prefix, searchFrom); ... }` loop of
`parseScope`: collect occurrences of `pat` that are at index 0 or preceded by
`'/'`, advancing the search position past each hit.  `fuel` bounds the number
of iterations; `s.length + 1` always suffices. -/
def occLoop (pat s : List Char) : Nat → Nat → List Nat
  | 0, _ => []
  | Nat.succ fuel, start =>
    match firstMatchFrom pat s start with
    | none => []
    | some idx =>
      (if idx = 0 ∨ s.get? (idx - 1) = some '/' then [idx] else [])
        ++ occLoop pat s fuel (idx + pat.length)

/-- All recorded (segment-boundary) occurrence positions of `pat` in `s`. -/
def occPositions (pat s : List Char) : List Nat :=
  occLoop pat s (s.length + 1) 0

/-- The `positions` array of `parseScope`: `(prefix, idx)` pairs pushed in
prefix order (before sorting). -/
def allPositions (s : List Char) : List (List Char × Nat) :=
  KNOWN_PREFIXES.flatMap (fun p => (occPositions p s).map (fun i => (p, i)))

/-- Insert a `(prefix, idx)` pair into a list sorted by `idx`. -/
def insertByIdx (x : List Char × Nat) : List (List Char × Nat) → List (List Char × Nat)
  | [] => [x]
  | y :: ys => if x.2 < y.2 then x :: y :: ys else y :: insertByIdx x ys

/-- `positions.sort((a, b) => a.idx - b.idx)` (stable; ties cannot occur since
the known prefixes start with pairwise distinct characters). -/
def sortByIdx : List (List Char × Nat) → List (List Char × Nat)
  | [] => []
  | x :: xs => insertByIdx x (sortByIdx xs)

/-- `value.split("/")` (including empty segments), accumulator style. -/
def splitSlashAux : List Char → List Char → List (List Char)
  | [], acc => [acc.reverse]
  | c :: cs, acc =>
    if c = '/' then acc.reverse :: splitSlashAux cs [] else splitSlashAux cs (c :: acc)

/-- `value.split("/").filter(Boolean).length` — the number of nonempty
`/`-delimited segments of `s`. -/
def segCount (s : List Char) : Nat :=
  ((splitSlashAux s []).filter (fun t => !t.isEmpty)).length

/-- The level-building loop of `parseScope`: walk the sorted positions,
slicing each value between its prefix and the next position, accumulating
`cumulativeSegments += 1 + valueSegments.length`. -/
def buildLevels (s : List Char) : List (List Char × Nat) → Nat → Nat → List ScopeLevel
  | [], _, _ => []
  | (p, idx) :: rest, cum, lvl =>
    let start := idx + p.length
    let stop :=
      match rest with
      | (_, idx2) :: _ => idx2 - 1
      | [] => s.length
    let value := (s.take stop).drop start
    let cum2 := cum + 1 + segCount value
    ⟨p.dropLast, value, lvl, cum2⟩ :: buildLevels s rest cum2 (lvl + 1)

/-- `parseScope` from the console UI utils: parse a Continuum scope string
into typed hierarchy levels.  Empty input returns `[]`; input with no
boundary occurrence of a known prefix collapses to a single `scope` level. -/
def parseScope (s : List Char) : List ScopeLevel :=
  if s.isEmpty then []
  else
    let positions := allPositions s
    if positions.isEmpty then
      [⟨cl "scope", s, 1, segCount s⟩]
    else
      buildLevels s (sortByIdx positions) 0 1

/-! ## Scope coverage and specificity (spec §4.1) -/

/-- Modelled from the spec: `isDescendantOrEqual(candidate, reference)` of the
Scope Model (§4.1) — the engine implementation is not in the OSS tree.  The
candidate scope applies to the reference scope if the reference's string
starts with the candidate's string at a segment boundary: exact equality, or
the reference extends the candidate with a `/`-prefixed continuation. -/
def isDescendantOrEqual (candidate reference : String) : Bool :=
  candidate == reference || (candidate ++ "/").data.isPrefixOf reference.data

/-- Modelled from the spec: `specificityOf(scope)` (§4.1) — the total
accumulated specificity of a scope string, i.e. the cumulative segment count
of the last parsed level (0 for the empty parse).  Backed by the source
`parseScope`. -/
def specificityOf (s : String) : Nat :=
  (((parseScope s.data).map ScopeLevel.specificity).getLast?).getD 0

/-! ## Decision data model (SDK types and spec §3) -/

/-- Lifecycle status of a decision (`DecisionStatus` in the TS SDK types). -/
inductive Status where
  | draft
  | active
  | superseded
  | archived
deriving DecidableEq, Repr

/-- Classification of the decision (`DecisionType` in the TS SDK types). -/
inductive DType where
  | interpretation
  | rejection
  | preference
  | behavior_rule
deriving DecidableEq, Repr

/-- How overrides are handled (`OverridePolicy` in the TS SDK types). -/
inductive OPolicy where
  | invalid_by_default
  | warn
  | allow
deriving DecidableEq, Repr

/-- Classification of an action being evaluated (`ActionType` in the TS SDK
types). -/
inductive ActionType where
  | code_change
  | migration
  | api_break
  | deployment
  | config_change
  | generic
deriving DecidableEq, Repr

/-- Outcome of enforcement evaluation (`EnforcementVerdict` in the TS SDK
types). -/
inductive Verdict where
  | allow
  | block
  | confirm
  | override
deriving DecidableEq, Repr

/-- An option considered during a decision (`Option` in the TS SDK types). -/
structure DOption where
  id : String
  title : String
  selected : Bool
  rejected_reason : Option String := none
deriving DecidableEq, Repr

/-- Contextual information about when/why a decision was made
(`DecisionContext` in the TS SDK types; timestamps as naturals). -/
structure DContext where
  trigger : String
  source : String
  timestamp : Nat
  actor : Option String := none
deriving DecidableEq, Repr

/-- Enforcement rules for a decision (`Enforcement` in the TS SDK types). -/
structure Enforcement where
  scope : String
  decision_type : DType
  supersedes : Option String := none
  precedence : Option Int := none
  override_policy : OPolicy := OPolicy.invalid_by_default
deriving DecidableEq, Repr

/-- Core decision record (`Decision` in the TS SDK types, with the
`binding_key` column of the demo store's `002_add_binding_key.sql`
migration; timestamps as naturals). -/
structure Decision where
  id : String
  version : Nat
  status : Status
  title : String
  rationale : Option String := none
  options_considered : List DOption := []
  context : Option DContext := none
  enforcement : Enforcement
  stakeholders : List String := []
  metadata : List (String × String) := []
  bindingKey : String
  created_at : Nat
  updated_at : Nat
deriving DecidableEq, Repr

/-- An action to be evaluated against enforcement rules (`Action` in the TS
SDK types). -/
structure Action where
  type : ActionType
  description : String
  scope : String
deriving DecidableEq, Repr

/-- Result of evaluating an action against decisions (`EnforcementResult` in
the TS SDK types). -/
structure EnforcementResult where
  verdict : Verdict
  reason : String
  matched_decisions : List String
  required_confirmations : List String
deriving DecidableEq, Repr

/-! ## Lifecycle state machine (spec §4.2) -/

/-- Modelled from the spec: the valid-transition table of §4.2
(`draft→active`, `active→superseded`, `active→archived`,
`superseded→archived`) — the lifecycle state machine is not in the OSS
tree. -/
def allowedTransition : Status → Status → Bool
  | Status.draft, Status.active => true
  | Status.active, Status.superseded => true
  | Status.active, Status.archived => true
  | Status.superseded, Status.archived => true
  | _, _ => false

/-- A disallowed lifecycle transition, carrying the specific rejected pair
(spec §4.2 / §7 `TransitionError`). -/
structure TransitionError where
  src : Status
  dst : Status
deriving DecidableEq, Repr

/-- Modelled from the spec: `transition(decision, targetStatus)` (§4.2) — a
pure function; on success it returns a new decision value with `status`,
`updated_at`, and `version` (+1) updated and all other fields unchanged; on
failure it returns the specific disallowed pair. -/
def transition (d : Decision) (target : Status) (now : Nat) :
    Except TransitionError Decision :=
  if allowedTransition d.status target then
    Except.ok { d with status := target, version := d.version + 1, updated_at := now }
  else
    Except.error ⟨d.status, target⟩

/-- Modelled from the spec: a transition attempt that keeps the input
decision on failure ("never silently coerced", "without mutating input",
§4.2) — returns the updated decision, or the unchanged input together with
the `TransitionError`. -/
def tryTransition (d : Decision) (target : Status) (now : Nat) :
    Decision × Option TransitionError :=
  match transition d target now with
  | Except.ok d2 => (d2, none)
  | Except.error e => (d, some e)

/-! ## Enforcement engine (spec §4.3) -/

/-- A rejected option of `o` matches the action description `desc` under the
pluggable deterministic matcher `mf` (spec §4.3 step 2, §9: the keyword
matcher is deliberately pluggable). -/
def optionMatches (mf : String → String → Bool) (desc : String) (o : DOption) : Bool :=
  !o.selected && mf desc o.title

/-- Does some rejected option of `d` match the action's description? -/
def hasRejectedMatch (mf : String → String → Bool) (a : Action) (d : Decision) : Bool :=
  d.options_considered.any (optionMatches mf a.description)

/-- Spec §4.3 step 1: an active decision applies to the action when its scope
`isDescendantOrEqual`-covers the action's scope. -/
def coversAction (d : Decision) (a : Action) : Bool :=
  d.status == Status.active && isDescendantOrEqual d.enforcement.scope a.scope

/-- Effective precedence integer of a decision (absent = 0). -/
def precedenceOf (d : Decision) : Int :=
  d.enforcement.precedence.getD 0

/-- Spec §4.3 step 5 ranking: higher scope specificity wins, then higher
`precedence`, then most recent activation (`created_at`). -/
def outranks (d e : Decision) : Bool :=
  let sd := specificityOf d.enforcement.scope
  let se := specificityOf e.enforcement.scope
  if sd ≠ se then decide (sd > se)
  else if precedenceOf d ≠ precedenceOf e then decide (precedenceOf d > precedenceOf e)
  else decide (d.created_at > e.created_at)

/-- The winning decision of a candidate list under the §4.3 step 5 ranking
(earlier entries win exact ties). -/
def pickBest : List Decision → Option Decision
  | [] => none
  | d :: ds =>
    match pickBest ds with
    | none => some d
    | some b => if outranks b d then some b else some d

/-- Modelled from the spec: the Enforcement Engine (§4.3, steps 1–3 and 6) —
not in the OSS tree.  `mf` is the pluggable deterministic description
matcher (§9).  With the scorer hooks absent, `DecisionCompiler.extractRules`
yields no rules, so step 4 (behavior rules) produces no confirmations and is
omitted; step 5's winner selection is `pickBest`. -/
def enforce (mf : String → String → Bool) (a : Action) (ds : List Decision) :
    EnforcementResult :=
  let matched := ds.filter (fun d => coversAction d a)
  let rejectedM := matched.filter (fun d => hasRejectedMatch mf a d)
  match pickBest rejectedM with
  | some w =>
    match w.enforcement.override_policy with
    | OPolicy.invalid_by_default =>
      ⟨Verdict.block, "action matches a rejected option",
        rejectedM.map Decision.id, []⟩
    | OPolicy.warn =>
      ⟨Verdict.confirm, "action matches a rejected option; confirmation required",
        rejectedM.map Decision.id, rejectedM.map Decision.id⟩
    | OPolicy.allow =>
      ⟨Verdict.allow, "action matches a rejected option; allowed by policy",
        rejectedM.map Decision.id, []⟩
  | none =>
    if matched.isEmpty then
      ⟨Verdict.allow, "no applicable decision", [], []⟩
    else
      ⟨Verdict.allow, "no rejected option matched", matched.map Decision.id, []⟩

/-- The default deterministic matcher used by the concrete scenarios: plain
substring containment of the option title in the action description. -/
def substrMatch (desc pat : String) : Bool :=
  (List.range (desc.data.length + 1)).any (fun i => matchesAt pat.data desc.data i)

/-! ## Store operations (spec §4.5, §5, §6; unique-active index from
`002_add_binding_key.sql`) -/

/-- Errors surfaced by the store-boundary operations (spec §7). -/
inductive StoreError where
  | notFound
  | duplicateId
  | bindingConflict
  | transitionFailed (e : TransitionError)
deriving DecidableEq, Repr

/-- Caller-supplied fields for `commit` (spec §6 `commit(fields)`). -/
structure CommitFields where
  title : String
  scope : String
  decision_type : DType
  bindingKey : String
  options_considered : List DOption := []
  rationale : Option String := none
  precedence : Option Int := none
  override_policy : OPolicy := OPolicy.invalid_by_default
deriving Repr

/-- The decision record created by a commit: created in `draft` and activated
in the same atomic store write, with `version` starting fresh at 0
(spec §3, §4.5). -/
def mkActive (newId : String) (f : CommitFields) (now : Nat) : Decision :=
  { id := newId, version := 0, status := Status.active, title := f.title,
    rationale := f.rationale, options_considered := f.options_considered,
    context := none,
    enforcement :=
      { scope := f.scope, decision_type := f.decision_type,
        supersedes := none, precedence := f.precedence,
        override_policy := f.override_policy },
    stakeholders := [], metadata := [], bindingKey := f.bindingKey,
    created_at := now, updated_at := now }

/-- `d` is an active decision carrying the given (scope, binding key) pair —
the row predicate of the partial unique index `uniq_active_binding`. -/
def collides (scope bkey : String) (d : Decision) : Bool :=
  d.status == Status.active && d.enforcement.scope == scope && d.bindingKey == bkey

/-- Some active decision in the store carries this (scope, binding key). -/
def activeCollision (σ : List Decision) (scope bkey : String) : Bool :=
  σ.any (collides scope bkey)

/-- Some active decision other than `i` carries this (scope, binding key). -/
def activeCollisionOther (σ : List Decision) (i : String) (scope bkey : String) : Bool :=
  σ.any (fun d => d.id != i && collides scope bkey d)

/-- Is the id already taken in the store? -/
def idExists (σ : List Decision) (i : String) : Bool :=
  σ.any (fun d => d.id == i)

/-- Replace the decision with id `i` by `d2`, keeping all others. -/
def replaceById (σ : List Decision) (i : String) (d2 : Decision) : List Decision :=
  σ.map (fun x => if x.id == i then d2 else x)

/-- Modelled from the spec: the store-boundary `commit` (§5, §6) — not in the
OSS tree.  A commit colliding on an existing active (scope, binding key) is
rejected, mirroring the `uniq_active_binding` unique index of
`002_add_binding_key.sql`; on failure the store is returned unchanged. -/
def commitOp (σ : List Decision) (newId : String) (f : CommitFields) (now : Nat) :
    List Decision × Option StoreError :=
  if idExists σ newId then (σ, some StoreError.duplicateId)
  else if activeCollision σ f.scope f.bindingKey then
    (σ, some StoreError.bindingConflict)
  else (σ ++ [mkActive newId f now], none)

/-- Modelled from the spec: applying a lifecycle transition to a stored
decision (§4.2 at the store boundary of §5) — not in the OSS tree.  A
transition into `active` that would create a second active row for the same
(scope, binding key) is rejected by the unique index; on failure the store is
returned unchanged. -/
def transitionOp (σ : List Decision) (did : String) (target : Status) (now : Nat) :
    List Decision × Option StoreError :=
  match σ.find? (fun d => d.id == did) with
  | none => (σ, some StoreError.notFound)
  | some d =>
    match transition d target now with
    | Except.error e => (σ, some (StoreError.transitionFailed e))
    | Except.ok d2 =>
      if target == Status.active &&
          activeCollisionOther σ did d2.enforcement.scope d2.bindingKey then
        (σ, some StoreError.bindingConflict)
      else (replaceById σ did d2, none)

/-- Caller-supplied fields for `supersede` (spec §4.5 `newFields`): `scope`,
`decision_type` and the binding key default to the old decision's values
unless explicitly overridden. -/
structure SupersedeFields where
  title : String
  rationale : Option String := none
  options_considered : List DOption := []
  scope : Option String := none
  decision_type : Option DType := none
  bindingKey : Option String := none
  precedence : Option Int := none
  override_policy : Option OPolicy := none
deriving Repr

/-- Modelled from the spec: the Supersession Coordinator `supersede(oldId,
newFields)` (§4.5) — not in the OSS tree.  Fails with `NotFoundError` if
`oldId` does not reference a currently active decision.  On success the old
decision transitions `active→superseded` via §4.2, and a new decision is
created and activated in the same atomic write, carrying
`enforcement.supersedes = oldId` and `version = 0` ("version starts fresh at
0 for the new record"); the unique-active index guards the new row.  The
error branch of the §4.2 transition is unreachable because the old decision
was found `active`. -/
def supersedeOp (σ : List Decision) (oldId newId : String) (f : SupersedeFields)
    (now : Nat) : Except StoreError (List Decision × Decision) :=
  match σ.find? (fun d => d.id == oldId && d.status == Status.active) with
  | none => Except.error StoreError.notFound
  | some old =>
    if idExists σ newId then Except.error StoreError.duplicateId
    else
      let newScope := f.scope.getD old.enforcement.scope
      let newType := f.decision_type.getD old.enforcement.decision_type
      let newKey := f.bindingKey.getD old.bindingKey
      if activeCollisionOther σ oldId newScope newKey then
        Except.error StoreError.bindingConflict
      else
        match transition old Status.superseded now with
        | Except.error _ => Except.error StoreError.notFound
        | Except.ok old2 =>
          let newD : Decision :=
            { id := newId, version := 0, status := Status.active,
              title := f.title, rationale := f.rationale,
              options_considered := f.options_considered, context := none,
              enforcement :=
                { scope := newScope, decision_type := newType,
                  supersedes := some oldId, precedence := f.precedence,
                  override_policy :=
                    f.override_policy.getD old.enforcement.override_policy },
              stakeholders := [], metadata := [], bindingKey := newKey,
              created_at := now, updated_at := now }
          Except.ok (replaceById σ oldId old2 ++ [newD], newD)

/-! ## Resolve / ambiguity gate (spec §4.4) -/

/-- Resolution status from the ambiguity gate (`ResolveStatus` in the TS SDK
types). -/
inductive RStatus where
  | resolved
  | needs_clarification
deriving DecidableEq, Repr

/-- Result of the resolve operation (`ResolveResult` in the TS SDK types,
restricted to the fields the gate decides deterministically). -/
structure RResult where
  status : RStatus
  matched_decision_id : Option String
  candidates : List String
deriving DecidableEq, Repr

/-- Spec §4.4: an active decision of type `interpretation` answers the query
when its scope covers the query scope and its binding key equals the query's
normalized key (modelled as the query string itself — exact matching, never
fuzzy). -/
def resolveMatch (q scope : String) (d : Decision) : Bool :=
  d.status == Status.active
    && d.enforcement.decision_type == DType.interpretation
    && isDescendantOrEqual d.enforcement.scope scope
    && d.bindingKey == q

/-- Modelled from the spec: `resolve(query, scope, candidates?)` (§4.4) — not
in the OSS tree.  Returns `resolved` with the winning matched decision id, or
`needs_clarification` echoing the caller-supplied candidates verbatim. -/
def resolveOp (q scope : String) (cands : List String) (σ : List Decision) : RResult :=
  match pickBest (σ.filter (resolveMatch q scope)) with
  | some d => ⟨RStatus.resolved, some d.id, []⟩
  | none => ⟨RStatus.needs_clarification, none, cands⟩

/-! ## Reachable store states -/

/-- One public store-boundary operation, successful or failed (failed
operations leave the store unchanged by construction). -/
inductive Step : List Decision → List Decision → Prop where
  | commit : ∀ σ newId f now σ2 e,
      commitOp σ newId f now = (σ2, e) → Step σ σ2
  | lifecycle : ∀ σ did target now σ2 e,
      transitionOp σ did target now = (σ2, e) → Step σ σ2
  | supersede_ok : ∀ σ oldId newId f now σ2 d,
      supersedeOp σ oldId newId f now = Except.ok (σ2, d) → Step σ σ2
  | supersede_err : ∀ σ oldId newId f now e,
      supersedeOp σ oldId newId f now = Except.error e → Step σ σ

/-- Zero or more store-boundary operations. -/
inductive Steps : List Decision → List Decision → Prop where
  | refl : ∀ σ, Steps σ σ
  | tail : ∀ σ1 σ2 σ3, Steps σ1 σ2 → Step σ2 σ3 → Steps σ1 σ3

/-- Store states reachable from the empty store. -/
inductive Reachable : List Decision → Prop where
  | init : Reachable []
  | step : ∀ σ σ2, Reachable σ → Step σ σ2 → Reachable σ2

/-! ## Schema v0.1 → v0.2 migration (`migrate_v01_to_v02` from
`oss/contracts/MIGRATION-v0.2.md`) -/

/-- A Python/JSON value as manipulated by the migration function. -/
inductive PyVal where
  | pyStr : String → PyVal
  | pyInt : Int → PyVal
  | pyBool : Bool → PyVal
  | pyNull : PyVal
  | pyList : List PyVal → PyVal
  | pyDict : List (String × PyVal) → PyVal

/-- A Python dict with string keys, as an insertion-ordered association list
(keys unique, as in Python dicts). -/
abbrev PyDict : Type := List (String × PyVal)

/-- `d.get(k)` / `d[k]` lookup (keys are unique in a Python dict). -/
def dget : PyDict → String → Option PyVal
  | [], _ => none
  | kv :: d, k => if kv.1 = k then some kv.2 else dget d k

/-- `d[k] = v`: overwrite in place if the key exists (keeping its position),
otherwise append. -/
def dset : PyDict → String → PyVal → PyDict
  | [], k, v => [(k, v)]
  | kv :: d, k, v => if kv.1 = k then (k, v) :: d else kv :: dset d k v

/-- `d.pop(k)`: remove the binding for `k`, if present. -/
def dpop : PyDict → String → PyDict
  | [], _ => []
  | kv :: d, k => if kv.1 = k then d else kv :: dpop d k

/-- `d.setdefault(k, v)`: append `(k, v)` only when `k` is absent. -/
def dsetdefault : PyDict → String → PyVal → PyDict
  | [], k, v => [(k, v)]
  | kv :: d, k, v => if kv.1 = k then kv :: d else kv :: dsetdefault d k v

/-- Python `str.startswith`, character-wise. -/
def pyStartsWith (s pat : String) : Bool :=
  pat.data.isPrefixOf s.data

/-- The enforcement fields consolidated by the migration, in source order. -/
def ENFORCEMENT_FIELDS : List String :=
  ["scope", "decision_type", "supersedes", "precedence", "override_policy"]

/-- The `for field in (...)` loop of `migrate_v01_to_v02`: move each present
field from the migrated dict into the enforcement dict. -/
def popEnforcementFields :
    List String → PyDict × PyDict → PyDict × PyDict
  | [], st => st
  | f :: fs, (enf, mig) =>
    match dget mig f with
    | some v => popEnforcementFields fs (enf ++ [(f, v)], dpop mig f)
    | none => popEnforcementFields fs (enf, mig)

/-- The `if enforcement: migrated["enforcement"] = enforcement` tail of the
consolidation: install the collected enforcement dict when nonempty. -/
def mkEnfStep : PyDict × PyDict → PyDict
  | (enf, mig) =>
    if enf.isEmpty then mig else dset mig "enforcement" (PyVal.pyDict enf)

/-- The body of `migrate_v01_to_v02` past the version guard: set
`schema_version`, consolidate enforcement fields, add defaulted optional
fields. -/
def migrateBody (data : PyDict) : PyDict :=
  let m1 := dset data "schema_version" (PyVal.pyStr "0.2.0")
  let m2 :=
    if (dget m1 "enforcement").isSome then m1
    else mkEnfStep (popEnforcementFields ENFORCEMENT_FIELDS ([], m1))
  let m3 := dsetdefault m2 "tags" (PyVal.pyList [])
  let m4 := dsetdefault m3 "expires_at" PyVal.pyNull
  dsetdefault m4 "source_ref" PyVal.pyNull

/-- `migrate_v01_to_v02` from `oss/contracts/MIGRATION-v0.2.md` §3.2: upgrade
a v0.1 decision dict to v0.2 format.  `none` models the Python
`AttributeError` raised when a present `schema_version` is not a string
(`data.get("schema_version", "").startswith("0.2")`). -/
def migrate_v01_to_v02 (data : PyDict) : Option PyDict :=
  match dget data "schema_version" with
  | some (PyVal.pyStr s) =>
    if pyStartsWith s "0.2" then some data else some (migrateBody data)
  | some _ => none
  | none => some (migrateBody data)

/-! ## Sample data for the concrete scenarios -/

/-- A rejection enforcement block for `repo:acme` (spec §8 scenario). -/
def sampleEnf : Enforcement :=
  { scope := "repo:acme", decision_type := DType.rejection }

/-- An archived decision, used to exercise rejected transitions. -/
def sampleArchived : Decision :=
  { id := "dec_a1", version := 3, status := Status.archived, title := "legacy",
    enforcement := sampleEnf, bindingKey := "legacy", created_at := 1, updated_at := 2 }

/-! ## Claims -/

/-- C1: for every decision and every target status, `transition` succeeds
exactly for the four allowed pairs `draft→active`, `active→superseded`,
`active→archived`, `superseded→archived`; for every other pair it fails with
the `TransitionError` carrying that specific pair, and after a failed attempt
the decision is unchanged (every field). -/
theorem c1_transition_exact_pairs :
    ∀ (d : Decision) (t : Status) (now : Nat),
      ((∃ d2, transition d t now = Except.ok d2) ↔
        ((d.status = Status.draft ∧ t = Status.active) ∨
         (d.status = Status.active ∧ t = Status.superseded) ∨
         (d.status = Status.active ∧ t = Status.archived) ∨
         (d.status = Status.superseded ∧ t = Status.archived)))
      ∧ (∀ e, transition d t now = Except.error e →
          e = ⟨d.status, t⟩ ∧ tryTransition d t now = (d, some e)) := by
  intro d t now
  cases hs : d.status <;> cases t <;>
    simp [transition, tryTransition, allowedTransition, hs]

/-- C1 witness: the disallowed pair `archived→active` fails with the specific
`TransitionError` and leaves the decision unchanged. -/
theorem c1_transition_exact_pairs_witness :
    (⟨Status.archived, Status.active⟩ : TransitionError)
        = ⟨sampleArchived.status, Status.active⟩
    ∧ tryTransition sampleArchived Status.active 5
        = (sampleArchived, some ⟨Status.archived, Status.active⟩) :=
  (c1_transition_exact_pairs sampleArchived Status.active 5).2
    ⟨Status.archived, Status.active⟩ rfl

/-- C4: `isDescendantOrEqual candidate reference` holds exactly when the
reference's string starts with the candidate's string at a segment boundary
— exact equality, or the reference extends the candidate with a `/`-prefixed
continuation; in particular `repo:acme` covers `repo:acme/folder:src` but
not the other way around. -/
theorem c4_scope_coverage :
    (∀ candidate reference : String,
      isDescendantOrEqual candidate reference = true ↔
        (reference = candidate ∨
          ∃ rest : String, reference = candidate ++ "/" ++ rest))
    ∧ isDescendantOrEqual "repo:acme" "repo:acme/folder:src" = true
    ∧ isDescendantOrEqual "repo:acme/folder:src" "repo:acme" = false := by
  refine ⟨?_, by decide, by decide⟩
  intro c r
  unfold isDescendantOrEqual
  rw [Bool.or_eq_true, beq_iff_eq, List.isPrefixOf_iff_prefix]
  constructor
  · rintro (h | ⟨t, ht⟩)
    · exact Or.inl h.symm
    · refine Or.inr ⟨⟨t⟩, ?_⟩
      rw [String.ext_iff]
      simp only [String.data_append]
      simpa [String.data_append] using ht.symm
  · rintro (h | ⟨rest, hrest⟩)
    · exact Or.inl h.symm
    · refine Or.inr ⟨rest.data, ?_⟩
      rw [String.ext_iff] at hrest
      simpa [String.data_append] using hrest.symm

/-- Helper: on a nonempty input with no recorded prefix occurrence,
`parseScope` returns the single fallback level. -/
theorem parseScope_fallback (s : List Char) (hne : s ≠ []) (hpos : allPositions s = []) :
    parseScope s = [⟨cl "scope", s, 1, segCount s⟩] := by
  unfold parseScope
  simp [hpos, hne]

/-- Helper: on input with a recorded prefix occurrence, `parseScope` builds
the levels from the sorted positions. -/
theorem parseScope_positions (s : List Char) (hne : s ≠ []) (hpos : ¬ allPositions s = []) :
    parseScope s = buildLevels s (sortByIdx (allPositions s)) 0 1 := by
  unfold parseScope
  simp [hpos, hne]

/-- C3 counterexample: on the empty string the source returns no levels at
all (`if (!scope) return []`), not a single fallback `scope` level. -/
theorem c3_empty_string_counterexample :
    parseScope (cl "") = [] ∧ (parseScope (cl "")).length ≠ 1 := by decide

/-- C3 (amended): `parseScope` is total by construction; every nonempty
input with no recorded known-prefix occurrence yields exactly one level of
type `scope` whose specificity is the input's nonempty segment count, while
the empty string yields the empty list instead of a fallback level. -/
theorem c3_parse_total_fallback :
    (∀ s : List Char, s ≠ [] → allPositions s = [] →
      parseScope s = [⟨cl "scope", s, 1, segCount s⟩])
    ∧ parseScope (cl "") = [] :=
  ⟨parseScope_fallback, rfl⟩

/-- C3 witness: the unknown-prefix input `hello/world` collapses to a single
`scope` level counting its two segments. -/
theorem c3_parse_total_fallback_witness :
    parseScope (cl "hello/world") = [⟨cl "scope", cl "hello/world", 1, segCount (cl "hello/world")⟩] :=
  c3_parse_total_fallback.1 (cl "hello/world") (by decide) (by decide)

/-- Helper: along the level-building loop, each level's specificity is the
previous cumulative count plus 1 (its prefix segment) plus the nonempty
sub-segment count of its value. -/
theorem buildLevels_chain :
    ∀ (s : List Char) (ps : List (List Char × Nat)) (cum lvl : Nat),
      List.Chain' (fun a b => b.specificity = a.specificity + 1 + segCount b.value)
        (buildLevels s ps cum lvl)
      ∧ (∀ hd, (buildLevels s ps cum lvl).head? = some hd →
          hd.specificity = cum + 1 + segCount hd.value) := by
  intro s ps
  induction ps with
  | nil =>
    intro cum lvl
    exact ⟨by simp [buildLevels], by simp [buildLevels]⟩
  | cons p rest ih =>
    intro cum lvl
    obtain ⟨pf, idx⟩ := p
    simp only [buildLevels]
    constructor
    · rw [List.chain'_cons']
      refine ⟨?_, (ih _ _).1⟩
      intro b hb
      have h2 := (ih (cum + 1 + segCount ((s.take _).drop (idx + pf.length))) (lvl + 1)).2 b hb
      simpa using h2
    · intro hd hhd
      simp only [List.head?_cons, Option.some.injEq] at hhd
      subst hhd
      rfl

/-- C8: the specificity values of the levels returned by `parseScope` are
strictly increasing in level order; each prefixed level adds 1 for its
prefix segment plus 1 per nonempty `/`-delimited sub-segment of its value
(the first level starting from 0), and an unprefixed fallback level
contributes exactly its plain segment count. -/
theorem c8_specificity_strictly_increasing :
    ∀ s : List Char,
      List.Chain' (fun a b => a.specificity < b.specificity) (parseScope s)
      ∧ List.Chain' (fun a b => b.specificity = a.specificity + 1 + segCount b.value)
          (parseScope s)
      ∧ (¬ allPositions s = [] → ∀ hd, (parseScope s).head? = some hd →
          hd.specificity = 1 + segCount hd.value)
      ∧ (allPositions s = [] → ∀ hd, hd ∈ parseScope s →
          hd.specificity = segCount hd.value) := by
  intro s
  by_cases hne : s = []
  · subst hne
    refine ⟨by simp [parseScope], by simp [parseScope], ?_, ?_⟩
    · intro _ hd hhd
      simp [parseScope] at hhd
    · intro _ hd hhd
      simp [parseScope] at hhd
  by_cases hpos : allPositions s = []
  · rw [parseScope_fallback s hne hpos]
    refine ⟨List.chain'_singleton _, List.chain'_singleton _, ?_, ?_⟩
    · intro h
      exact absurd hpos h
    · intro _ hd hhd
      simp only [List.mem_singleton] at hhd
      subst hhd
      rfl
  · rw [parseScope_positions s hne hpos]
    have hchain := buildLevels_chain s (sortByIdx (allPositions s)) 0 1
    refine ⟨?_, hchain.1, ?_, ?_⟩
    · exact hchain.1.imp (fun h => by omega)
    · intro _ hd hhd
      have := hchain.2 hd hhd
      omega
    · intro h
      exact absurd h hpos

/-- C8 witness: on `repo:acme/folder:src` the specificities are strictly
increasing and the first level counts 1 + its one sub-segment. -/
theorem c8_specificity_strictly_increasing_witness :
    List.Chain' (fun a b => a.specificity < b.specificity)
      (parseScope (cl "repo:acme/folder:src"))
    ∧ (⟨cl "repo", cl "acme", 1, 2⟩ : ScopeLevel).specificity
        = 1 + segCount (cl "acme") :=
  ⟨(c8_specificity_strictly_increasing (cl "repo:acme/folder:src")).1,
   (c8_specificity_strictly_increasing (cl "repo:acme/folder:src")).2.2.1
     (by decide) ⟨cl "repo", cl "acme", 1, 2⟩ (by decide)⟩

/-- Helper: every position recorded by the occurrence loop is a real match
of the pattern sitting at index 0 or immediately after a `/`. -/
theorem occLoop_mem_boundary :
    ∀ (pat s : List Char) (fuel start i : Nat), i ∈ occLoop pat s fuel start →
      (i = 0 ∨ s.get? (i - 1) = some '/') ∧ matchesAt pat s i = true := by
  intro pat s fuel
  induction fuel with
  | zero =>
    intro start i hi
    simp [occLoop] at hi
  | succ n ih =>
    intro start i hi
    unfold occLoop at hi
    split at hi
    · simp at hi
    next idx hfm =>
      have hpred := List.find?_some hfm
      rw [Bool.and_eq_true] at hpred
      rcases List.mem_append.mp hi with hin | hin
      · split at hin
        next hc =>
          rcases List.mem_singleton.mp hin with rfl
          exact ⟨hc, hpred.2⟩
        next hc => simp at hin
      · exact ih _ _ hin

/-- Helper: if no occurrence of the pattern sits at a segment boundary, the
occurrence loop records nothing. -/
theorem occLoop_no_boundary :
    ∀ (pat s : List Char),
      (∀ i, i ≤ s.length → matchesAt pat s i = true →
        ¬(i = 0 ∨ s.get? (i - 1) = some '/')) →
      ∀ fuel start, occLoop pat s fuel start = [] := by
  intro pat s hno fuel
  induction fuel with
  | zero => intro start; rfl
  | succ n ih =>
    intro start
    unfold occLoop
    split
    · rfl
    next idx hfm =>
      have hpred := List.find?_some hfm
      rw [Bool.and_eq_true] at hpred
      have hmem := List.mem_of_find?_eq_some hfm
      have hle : idx ≤ s.length := by
        have := List.mem_range.mp hmem
        omega
      rw [if_neg (hno idx hle hpred.2)]
      simp only [List.nil_append]
      exact ih _

/-- Helper: every level built by the level loop takes its type from one of
the supplied positions' prefixes (colon dropped). -/
theorem buildLevels_type_from :
    ∀ (s : List Char) (ps : List (List Char × Nat)) (cum lvl : Nat) (x : ScopeLevel),
      x ∈ buildLevels s ps cum lvl → ∃ pi, pi ∈ ps ∧ x.type = pi.1.dropLast := by
  intro s ps
  induction ps with
  | nil =>
    intro cum lvl x hx
    simp [buildLevels] at hx
  | cons p rest ih =>
    intro cum lvl x hx
    obtain ⟨pf, idx⟩ := p
    simp only [buildLevels, List.mem_cons] at hx
    rcases hx with rfl | hx
    · exact ⟨(pf, idx), List.mem_cons_self _ _, rfl⟩
    · obtain ⟨pi, hpi, hty⟩ := ih _ _ _ hx
      exact ⟨pi, List.mem_cons_of_mem _ hpi, hty⟩

/-- Helper: membership in the insertion step of the position sort. -/
theorem mem_insertByIdx :
    ∀ (x y : List Char × Nat) (l : List (List Char × Nat)),
      y ∈ insertByIdx x l ↔ y = x ∨ y ∈ l := by
  intro x y l
  induction l with
  | nil => simp [insertByIdx]
  | cons a l ih =>
    unfold insertByIdx
    by_cases hc : x.2 < a.2
    · rw [if_pos hc]
      simp [List.mem_cons]
    · rw [if_neg hc]
      simp only [List.mem_cons, ih]
      tauto

/-- Helper: the position sort neither adds nor drops positions. -/
theorem mem_sortByIdx :
    ∀ (y : List Char × Nat) (l : List (List Char × Nat)),
      y ∈ sortByIdx l ↔ y ∈ l := by
  intro y l
  induction l with
  | nil => simp [sortByIdx]
  | cons a l ih =>
    unfold sortByIdx
    rw [mem_insertByIdx, ih]
    simp [List.mem_cons]

/-- Helper: each recorded `(prefix, idx)` pair comes from a known prefix's
boundary occurrence list. -/
theorem mem_allPositions :
    ∀ (s pfx : List Char) (i : Nat), (pfx, i) ∈ allPositions s →
      pfx ∈ KNOWN_PREFIXES ∧ i ∈ occPositions pfx s := by
  intro s pfx i h
  rw [allPositions, List.mem_flatMap] at h
  obtain ⟨q, hq, hmem⟩ := h
  rw [List.mem_map] at hmem
  obtain ⟨j, hj, hpair⟩ := hmem
  simp only [Prod.mk.injEq] at hpair
  obtain ⟨rfl, rfl⟩ := hpair
  exact ⟨hq, hj⟩

/-- C9: `parseScope` starts a new level at an occurrence of a known prefix
only when that occurrence is at position 0 or immediately preceded by `/`;
a known prefix embedded inside a segment never yields a level of that
prefix's type — in particular `myrepo:acme` parses to a single fallback
`scope` level. -/
theorem c9_prefix_boundary_only :
    (∀ (s pfx : List Char) (i : Nat), (pfx, i) ∈ allPositions s →
      i = 0 ∨ s.get? (i - 1) = some '/')
    ∧ (∀ s pfx : List Char, pfx ∈ KNOWN_PREFIXES →
      (∀ i, i ≤ s.length → matchesAt pfx s i = true →
        ¬(i = 0 ∨ s.get? (i - 1) = some '/')) →
      ∀ lvl, lvl ∈ parseScope s → lvl.type ≠ pfx.dropLast)
    ∧ parseScope (cl "myrepo:acme") = [⟨cl "scope", cl "myrepo:acme", 1, 1⟩] := by
  refine ⟨?_, ?_, by decide⟩
  · intro s pfx i h
    exact (occLoop_mem_boundary pfx s _ _ i (mem_allPositions s pfx i h).2).1
  · intro s pfx hk hno lvl hlvl hty
    by_cases hne : s = []
    · subst hne
      simp [parseScope] at hlvl
    by_cases hpos : allPositions s = []
    · rw [parseScope_fallback s hne hpos] at hlvl
      simp only [List.mem_singleton] at hlvl
      subst hlvl
      have hdistinct : ∀ q ∈ KNOWN_PREFIXES, ¬ cl "scope" = q.dropLast := by decide
      exact hdistinct pfx hk hty
    · rw [parseScope_positions s hne hpos] at hlvl
      obtain ⟨⟨q, j⟩, hmem, hq⟩ := buildLevels_type_from s _ 0 1 lvl hlvl
      rw [mem_sortByIdx] at hmem
      obtain ⟨hqk, hj⟩ := mem_allPositions s q j hmem
      by_cases heq : q = pfx
      · subst heq
        rw [occPositions, occLoop_no_boundary q s hno _ _] at hj
        exact absurd hj (List.not_mem_nil j)
      · have hinj : ∀ p1 ∈ KNOWN_PREFIXES, ∀ p2 ∈ KNOWN_PREFIXES,
            p1.dropLast = p2.dropLast → p1 = p2 := by decide
        exact heq (hinj q hqk pfx hk (hq.symm.trans hty))

/-- C9 witness: the embedded `repo:` occurrence in `myrepo:acme` yields no
`repo`-typed level — the one produced level is the fallback. -/
theorem c9_prefix_boundary_only_witness :
    (⟨cl "scope", cl "myrepo:acme", 1, 1⟩ : ScopeLevel).type ≠ (cl "repo:").dropLast :=
  c9_prefix_boundary_only.2.1 (cl "myrepo:acme") (cl "repo:") (by decide) (by decide)
    ⟨cl "scope", cl "myrepo:acme", 1, 1⟩ (by decide)

/-- Helper: writing a key makes it readable. -/
theorem dget_dset_self : ∀ (d : PyDict) (k : String) (v : PyVal),
    dget (dset d k v) k = some v := by
  intro d k v
  induction d with
  | nil => simp [dset, dget]
  | cons kv d ih =>
    unfold dset
    by_cases h : kv.1 = k
    · rw [if_pos h]
      simp [dget]
    · rw [if_neg h]
      simp [dget, h, ih]

/-- Helper: writing one key leaves other keys unchanged. -/
theorem dget_dset_ne : ∀ (d : PyDict) (k : String) (v : PyVal) (k2 : String),
    k2 ≠ k → dget (dset d k v) k2 = dget d k2 := by
  intro d k v k2 hne
  induction d with
  | nil =>
    simp [dset, dget]
    exact fun h => hne h.symm
  | cons kv d ih =>
    unfold dset
    by_cases h : kv.1 = k
    · rw [if_pos h]
      have h2 : ¬ k = k2 := fun hh => hne hh.symm
      simp [dget, h2, h, dget]
    · rw [if_neg h]
      simp [dget, ih]

/-- Helper: popping one key leaves other keys unchanged. -/
theorem dget_dpop_ne : ∀ (d : PyDict) (k k2 : String),
    k2 ≠ k → dget (dpop d k) k2 = dget d k2 := by
  intro d k k2 hne
  induction d with
  | nil => simp [dpop]
  | cons kv d ih =>
    unfold dpop
    by_cases h : kv.1 = k
    · rw [if_pos h]
      have h2 : ¬ kv.1 = k2 := fun hh => hne (hh.symm.trans h)
      simp [dget, h2]
    · rw [if_neg h]
      simp [dget, ih]

/-- Helper: `setdefault` on one key leaves other keys unchanged. -/
theorem dget_dsetdefault_ne : ∀ (d : PyDict) (k : String) (v : PyVal) (k2 : String),
    k2 ≠ k → dget (dsetdefault d k v) k2 = dget d k2 := by
  intro d k v k2 hne
  induction d with
  | nil =>
    simp [dsetdefault, dget]
    exact fun h => hne h.symm
  | cons kv d ih =>
    unfold dsetdefault
    by_cases h : kv.1 = k
    · rw [if_pos h]
    · rw [if_neg h]
      simp [dget, ih]

/-- Helper: the enforcement-consolidation loop leaves keys outside the field
list unchanged in the migrated dict. -/
theorem dget_popEnf : ∀ (fs : List String) (enf mig : PyDict) (k : String),
    (∀ f ∈ fs, f ≠ k) →
    dget (popEnforcementFields fs (enf, mig)).2 k = dget mig k := by
  intro fs
  induction fs with
  | nil => intro enf mig k _; rfl
  | cons f fs ih =>
    intro enf mig k hk
    unfold popEnforcementFields
    cases hf : dget mig f with
    | some v =>
      rw [ih _ _ k (fun g hg => hk g (List.mem_cons_of_mem f hg))]
      exact dget_dpop_ne mig f k fun h => hk f (List.mem_cons_self f fs) h.symm
    | none =>
      exact ih _ _ k fun g hg => hk g (List.mem_cons_of_mem f hg)

/-- Helper: installing the enforcement dict leaves other keys unchanged. -/
theorem dget_mkEnfStep_ne : ∀ (p : PyDict × PyDict) (k : String),
    k ≠ "enforcement" → dget (mkEnfStep p) k = dget p.2 k := by
  intro p k hk
  obtain ⟨enf, mig⟩ := p
  simp only [mkEnfStep]
  split
  · rfl
  · exact dget_dset_ne mig "enforcement" (PyVal.pyDict enf) k hk

/-- Helper: the migration body always leaves `schema_version = "0.2.0"`. -/
theorem dget_migrateBody_version : ∀ d : PyDict,
    dget (migrateBody d) "schema_version" = some (PyVal.pyStr "0.2.0") := by
  intro d
  unfold migrateBody
  rw [dget_dsetdefault_ne _ _ _ _ (by decide),
      dget_dsetdefault_ne _ _ _ _ (by decide),
      dget_dsetdefault_ne _ _ _ _ (by decide)]
  split
  · exact dget_dset_self d "schema_version" (PyVal.pyStr "0.2.0")
  · rw [dget_mkEnfStep_ne _ _ (by decide),
        dget_popEnf ENFORCEMENT_FIELDS [] _ _ (by decide)]
    exact dget_dset_self d "schema_version" (PyVal.pyStr "0.2.0")

/-- C10: the schema migration is idempotent — a migrated dict passes the
version guard unchanged on a second application — and any input whose
`schema_version` already starts with `0.2` is returned unchanged. -/
theorem c10_migration_idempotent :
    (∀ d d2 : PyDict, migrate_v01_to_v02 d = some d2 →
      migrate_v01_to_v02 d2 = some d2)
    ∧ (∀ (d : PyDict) (s : String),
      dget d "schema_version" = some (PyVal.pyStr s) →
      pyStartsWith s "0.2" = true → migrate_v01_to_v02 d = some d) := by
  constructor
  · intro d d2 h
    unfold migrate_v01_to_v02 at h
    split at h
    next s hs =>
      split at h
      next hsw =>
        injection h with h
        subst h
        unfold migrate_v01_to_v02
        simp [hs, hsw]
      next hsw =>
        injection h with h
        subst h
        unfold migrate_v01_to_v02
        simp [dget_migrateBody_version d,
              show pyStartsWith "0.2.0" "0.2" = true from by decide]
    next => exact absurd h (by simp)
    next =>
      injection h with h
      subst h
      unfold migrate_v01_to_v02
      simp [dget_migrateBody_version d,
            show pyStartsWith "0.2.0" "0.2" = true from by decide]
  · intro d s hs hsw
    unfold migrate_v01_to_v02
    simp [hs, hsw]

/-- A v0.1-style decision dict with top-level enforcement fields. -/
def v01Dict : PyDict :=
  [("title", PyVal.pyStr "reject mongodb"), ("scope", PyVal.pyStr "repo:acme")]

/-- A dict already carrying a v0.2 schema version. -/
def v02Dict : PyDict := [("schema_version", PyVal.pyStr "0.2.0")]

/-- C10 witness: migrating a migrated v0.1 dict is a no-op, and a v0.2 dict
is returned unchanged. -/
theorem c10_migration_idempotent_witness :
    migrate_v01_to_v02 (migrateBody v01Dict) = some (migrateBody v01Dict)
    ∧ migrate_v01_to_v02 v02Dict = some v02Dict :=
  ⟨c10_migration_idempotent.1 v01Dict (migrateBody v01Dict) rfl,
   c10_migration_idempotent.2 v02Dict "0.2.0" rfl (by decide)⟩

/-- The spec §8 rejection-enforcement scenario decision: active rejection of
MongoDB for `repo:acme` with the default override policy. -/
def mongoDecision : Decision :=
  { id := "dec_mongo", version := 1, status := Status.active,
    title := "Do not use MongoDB",
    options_considered := [⟨"opt_1", "MongoDB", false, some "operational cost"⟩],
    enforcement := { scope := "repo:acme", decision_type := DType.rejection },
    bindingKey := "database choice", created_at := 1, updated_at := 1 }

/-- The spec §8 scenario action. -/
def mongoAction : Action :=
  { type := ActionType.code_change, description := "use MongoDB",
    scope := "repo:acme" }

/-- C2: when a matched decision's `options_considered` holds a rejected
option matching the action's description, the verdict follows the decision's
`override_policy` (`invalid_by_default → block`, `warn → confirm` with the
matched id in `required_confirmations`, `allow → allow` with the matched id
still reported); enforcing "use MongoDB" against the active `repo:acme`
rejection with `invalid_by_default` yields `block`. -/
theorem c2_rejected_option_policy :
    (∀ (mf : String → String → Bool) (d : Decision) (a : Action),
      d.status = Status.active →
      isDescendantOrEqual d.enforcement.scope a.scope = true →
      hasRejectedMatch mf a d = true →
      (enforce mf a [d]).verdict =
        (match d.enforcement.override_policy with
          | OPolicy.invalid_by_default => Verdict.block
          | OPolicy.warn => Verdict.confirm
          | OPolicy.allow => Verdict.allow)
      ∧ (enforce mf a [d]).matched_decisions = [d.id]
      ∧ (d.enforcement.override_policy = OPolicy.warn →
          (enforce mf a [d]).required_confirmations = [d.id]))
    ∧ (enforce substrMatch mongoAction [mongoDecision]).verdict = Verdict.block := by
  constructor
  · intro mf d a h1 h2 h3
    have hcov : coversAction d a = true := by
      simp [coversAction, h1, h2]
    cases hp : d.enforcement.override_policy <;>
      simp [enforce, hcov, h3, pickBest, hp]
  · decide

/-- C2 witness: the scenario decision instantiates the general
override-policy statement. -/
theorem c2_rejected_option_policy_witness :
    (enforce substrMatch mongoAction [mongoDecision]).verdict =
      (match mongoDecision.enforcement.override_policy with
        | OPolicy.invalid_by_default => Verdict.block
        | OPolicy.warn => Verdict.confirm
        | OPolicy.allow => Verdict.allow)
    ∧ (enforce substrMatch mongoAction [mongoDecision]).matched_decisions
        = [mongoDecision.id]
    ∧ (mongoDecision.enforcement.override_policy = OPolicy.warn →
        (enforce substrMatch mongoAction [mongoDecision]).required_confirmations
          = [mongoDecision.id]) :=
  c2_rejected_option_policy.1 substrMatch mongoDecision mongoAction rfl
    (by decide) (by decide)

/-- C5: `supersede(oldId, newFields)` fails with `NotFoundError` whenever
`oldId` does not reference a currently active decision; on success the old
decision's status becomes `superseded`, the new decision is active with
`enforcement.supersedes = oldId` and version 0, its scope and decision type
default to the old decision's unless overridden, and both mutations are
visible together in the single returned store state. -/
theorem c5_supersede_atomic :
    (∀ (σ : List Decision) (oldId newId : String) (f : SupersedeFields) (now : Nat),
      (¬ ∃ d, d ∈ σ ∧ d.id = oldId ∧ d.status = Status.active) →
      supersedeOp σ oldId newId f now = Except.error StoreError.notFound)
    ∧ (∀ (σ : List Decision) (oldId newId : String) (f : SupersedeFields)
        (now : Nat) (σ2 : List Decision) (newD : Decision),
      supersedeOp σ oldId newId f now = Except.ok (σ2, newD) →
      ∃ old, old ∈ σ ∧ old.id = oldId ∧ old.status = Status.active
        ∧ newD ∈ σ2
        ∧ newD.status = Status.active
        ∧ newD.enforcement.supersedes = some oldId
        ∧ newD.version = 0
        ∧ newD.enforcement.scope = f.scope.getD old.enforcement.scope
        ∧ newD.enforcement.decision_type
            = f.decision_type.getD old.enforcement.decision_type
        ∧ (∀ x, x ∈ σ2 → x.id = oldId → x.status = Status.superseded)) := by
  constructor
  · intro σ oldId newId f now hno
    unfold supersedeOp
    have hfind : σ.find? (fun d => d.id == oldId && d.status == Status.active) = none := by
      rw [List.find?_eq_none]
      intro x hx
      simp only [Bool.and_eq_true, beq_iff_eq, not_and]
      intro h1 h2
      exact hno ⟨x, hx, h1, h2⟩
    rw [hfind]
  · intro σ oldId newId f now σ2 newD h
    unfold supersedeOp at h
    split at h
    · exact absurd h (by simp)
    next old hfind =>
      split at h
      next hid => exact absurd h (by simp)
      next hid =>
        have hopred := List.find?_some hfind
        rw [Bool.and_eq_true, beq_iff_eq, beq_iff_eq] at hopred
        obtain ⟨hoid, hostat⟩ := hopred
        split at h
        next e hcol =>
          exfalso
          dsimp only at h
          split at h <;> exact absurd h (by simp)
        next old2 hcol =>
          have hcol2 := hcol
          simp only [transition, allowedTransition, hostat, if_true] at hcol2
          injection hcol2 with hold2
          dsimp only at h
          split at h
          next hconf => exact absurd h (by simp)
          next hconf =>
            rw [Except.ok.injEq, Prod.mk.injEq] at h
            obtain ⟨hσ2, hnewD⟩ := h
            subst hσ2
            subst hnewD
            refine ⟨old, List.mem_of_find?_eq_some hfind, hoid, hostat,
              ?_, rfl, rfl, rfl, rfl, rfl, ?_⟩
            · exact List.mem_append_right _ (List.mem_singleton.mpr rfl)
            · intro x hx hxid
              rcases List.mem_append.mp hx with hin | hin
              · rw [replaceById] at hin
                obtain ⟨y, hy, hxy⟩ := List.mem_map.mp hin
                by_cases hyid : y.id == oldId
                · rw [if_pos hyid] at hxy
                  subst hxy
                  rw [← hold2]
                · rw [if_neg hyid] at hxy
                  subst hxy
                  exact absurd hxid (by simpa using hyid)
              · rcases List.mem_singleton.mp hin with rfl
                exfalso
                have hidx : idExists σ newId = true := by
                  rw [idExists, List.any_eq_true]
                  exact ⟨old, List.mem_of_find?_eq_some hfind, by
                    rw [beq_iff_eq, hoid]; exact hxid.symm⟩
                exact hid hidx

/-- Commit fields of the decision later superseded in the scenarios. -/
def oldFields : CommitFields :=
  { title := "Use PostgreSQL", scope := "repo:acme",
    decision_type := DType.preference, bindingKey := "database choice" }

/-- The single-decision store holding the to-be-superseded decision. -/
def σOld : List Decision := [mkActive "dec_old" oldFields 0]

/-- The retired form of that decision after `supersede`. -/
def c5Old2 : Decision :=
  { mkActive "dec_old" oldFields 0 with
    status := Status.superseded, version := 1, updated_at := 5 }

/-- The replacement decision produced by the concrete `supersede` run. -/
def c5NewD : Decision :=
  { id := "dec_new", version := 0, status := Status.active, title := "v2",
    enforcement :=
      { scope := "repo:acme", decision_type := DType.preference,
        supersedes := some "dec_old" },
    bindingKey := "database choice", created_at := 5, updated_at := 5 }

/-- C5 witness: a missing id fails with `NotFoundError`, and the concrete
`supersede(dec_old, {title: v2})` run exhibits all success facts. -/
theorem c5_supersede_atomic_witness :
    supersedeOp σOld "dec_missing" "dec_x" { title := "v2" } 5
        = Except.error StoreError.notFound
    ∧ (∃ old, old ∈ σOld ∧ old.id = "dec_old" ∧ old.status = Status.active
        ∧ c5NewD ∈ [c5Old2, c5NewD]
        ∧ c5NewD.status = Status.active
        ∧ c5NewD.enforcement.supersedes = some "dec_old"
        ∧ c5NewD.version = 0
        ∧ c5NewD.enforcement.scope
            = ({ title := "v2" } : SupersedeFields).scope.getD old.enforcement.scope
        ∧ c5NewD.enforcement.decision_type
            = ({ title := "v2" } : SupersedeFields).decision_type.getD
                old.enforcement.decision_type
        ∧ (∀ x, x ∈ [c5Old2, c5NewD] → x.id = "dec_old" →
            x.status = Status.superseded)) :=
  ⟨c5_supersede_atomic.1 σOld "dec_missing" "dec_x" { title := "v2" } 5 (by decide),
   c5_supersede_atomic.2 σOld "dec_old" "dec_new" { title := "v2" } 5
     [c5Old2, c5NewD] c5NewD rfl⟩

/-! ## Store invariants (spec §5) -/

/-- All decision ids in the store are distinct. -/
def UniqueIds (σ : List Decision) : Prop :=
  (σ.map Decision.id).Nodup

/-- At most one active decision per (scope, binding key) pair. -/
def UniqueActive (σ : List Decision) : Prop :=
  ∀ d1, d1 ∈ σ → ∀ d2, d2 ∈ σ →
    d1.status = Status.active → d2.status = Status.active →
    d1.enforcement.scope = d2.enforcement.scope →
    d1.bindingKey = d2.bindingKey → d1 = d2

/-- Store well-formedness maintained at the store boundary. -/
def WF (σ : List Decision) : Prop := UniqueIds σ ∧ UniqueActive σ

/-- Helper: distinct records have distinct ids in a well-formed store. -/
theorem eq_of_mem_of_id_eq {σ : List Decision} (h : UniqueIds σ) :
    ∀ x, x ∈ σ → ∀ y, y ∈ σ → x.id = y.id → x = y := by
  intro x hx y hy hid
  exact List.inj_on_of_nodup_map h hx hy hid

/-- Helper: replacing a record by one with the same id keeps the id list. -/
theorem replaceById_map_id (σ : List Decision) (i : String) (d2 : Decision)
    (hid : d2.id = i) :
    (replaceById σ i d2).map Decision.id = σ.map Decision.id := by
  rw [replaceById, List.map_map]
  refine List.map_congr_left (fun x hx => ?_)
  by_cases hxid : (x.id == i) = true
  · simp only [Function.comp_apply, if_pos hxid]
    rw [hid]
    exact (beq_iff_eq.mp hxid).symm
  · simp only [Function.comp_apply, if_neg hxid]

/-- Helper: an element of `replaceById` is the replacement (for a matching
id) or an untouched original. -/
theorem mem_replaceById {σ : List Decision} {i : String} {d2 a : Decision}
    (ha : a ∈ replaceById σ i d2) :
    ∃ x, x ∈ σ ∧
      (((x.id == i) = true ∧ a = d2) ∨ (¬ (x.id == i) = true ∧ a = x)) := by
  rw [replaceById] at ha
  obtain ⟨x, hx, hxa⟩ := List.mem_map.mp ha
  by_cases hxid : (x.id == i) = true
  · exact ⟨x, hx, Or.inl ⟨hxid, by rw [← hxa, if_pos hxid]⟩⟩
  · exact ⟨x, hx, Or.inr ⟨hxid, by rw [← hxa, if_neg hxid]⟩⟩

/-- Helper: the commit operation preserves store well-formedness. -/
theorem commitOp_WF :
    ∀ (σ : List Decision) (newId : String) (f : CommitFields) (now : Nat)
      (σ2 : List Decision) (e : Option StoreError),
      commitOp σ newId f now = (σ2, e) → WF σ → WF σ2 := by
  intro σ newId f now σ2 e h hwf
  unfold commitOp at h
  split at h
  next =>
    rw [Prod.mk.injEq] at h
    obtain ⟨h1, -⟩ := h
    subst h1
    exact hwf
  next hid =>
    split at h
    next =>
      rw [Prod.mk.injEq] at h
      obtain ⟨h1, -⟩ := h
      subst h1
      exact hwf
    next hcol =>
      rw [Prod.mk.injEq] at h
      obtain ⟨h1, -⟩ := h
      subst h1
      have hfresh : ∀ x, x ∈ σ → ¬ x.id = newId := by
        intro x hx hxid
        apply hid
        rw [idExists, List.any_eq_true]
        exact ⟨x, hx, beq_iff_eq.mpr hxid⟩
      constructor
      · rw [UniqueIds, List.map_append, List.nodup_append]
        refine ⟨hwf.1, List.nodup_singleton _, ?_⟩
        intro a ha hb
        rw [List.map_singleton, List.mem_singleton] at hb
        obtain ⟨x, hx, hxa⟩ := List.mem_map.mp ha
        exact hfresh _ hx (hxa.trans hb)
      · intro d1 h1 d2 h2 ha1 ha2 hsc hkey
        rcases List.mem_append.mp h1 with h1l | h1r
        · rcases List.mem_append.mp h2 with h2l | h2r
          · exact hwf.2 d1 h1l d2 h2l ha1 ha2 hsc hkey
          · rcases List.mem_singleton.mp h2r with rfl
            exfalso
            apply hcol
            rw [activeCollision, List.any_eq_true]
            refine ⟨d1, h1l, ?_⟩
            simp only [collides, mkActive] at hsc hkey ⊢
            simp [ha1, hsc, hkey]
        · rcases List.mem_singleton.mp h1r with rfl
          rcases List.mem_append.mp h2 with h2l | h2r
          · exfalso
            apply hcol
            rw [activeCollision, List.any_eq_true]
            refine ⟨d2, h2l, ?_⟩
            simp only [collides, mkActive] at hsc hkey ⊢
            simp [ha2, ← hsc, ← hkey]
          · rcases List.mem_singleton.mp h2r with rfl
            rfl

/-- Helper: the stored-transition operation preserves well-formedness. -/
theorem transitionOp_WF :
    ∀ (σ : List Decision) (did : String) (target : Status) (now : Nat)
      (σ2 : List Decision) (e : Option StoreError),
      transitionOp σ did target now = (σ2, e) → WF σ → WF σ2 := by
  intro σ did target now σ2 e h hwf
  unfold transitionOp at h
  split at h
  next =>
    rw [Prod.mk.injEq] at h
    obtain ⟨h1, -⟩ := h
    subst h1
    exact hwf
  next d hfind =>
    split at h
    next =>
      rw [Prod.mk.injEq] at h
      obtain ⟨h1, -⟩ := h
      subst h1
      exact hwf
    next d2 htr =>
      split at h
      next =>
        rw [Prod.mk.injEq] at h
        obtain ⟨h1, -⟩ := h
        subst h1
        exact hwf
      next hguard =>
        rw [Prod.mk.injEq] at h
        obtain ⟨h1, -⟩ := h
        subst h1
        have hdid : d.id = did := by
          have hp := List.find?_some hfind
          rwa [beq_iff_eq] at hp
        have hd2 : d2 = { d with status := target, version := d.version + 1, updated_at := now } := by
          unfold transition at htr
          split at htr
          · injection htr with hh
            exact hh.symm
          · exact absurd htr (by simp)
        have hd2id : d2.id = did := by rw [hd2]; exact hdid
        constructor
        · rw [UniqueIds, replaceById_map_id σ did d2 hd2id]
          exact hwf.1
        · intro a ha b hb haact hbact hsc hkey
          obtain ⟨x, hx, hxcase⟩ := mem_replaceById ha
          obtain ⟨y, hy, hycase⟩ := mem_replaceById hb
          rcases hxcase with ⟨hxid, rfl⟩ | ⟨hxid, rfl⟩
          · rcases hycase with ⟨hyid, rfl⟩ | ⟨hyid, rfl⟩
            · rfl
            · exfalso
              apply hguard
              have htarget : target = Status.active := by
                rw [hd2] at haact
                exact haact
              rw [Bool.and_eq_true]
              refine ⟨by rw [htarget]; exact beq_self_eq_true _, ?_⟩
              rw [activeCollisionOther, List.any_eq_true]
              refine ⟨_, hy, ?_⟩
              rw [Bool.and_eq_true]
              refine ⟨by simp [bne, hyid], ?_⟩
              simp only [collides, Bool.and_eq_true, beq_iff_eq]
              exact ⟨⟨hbact, hsc.symm⟩, hkey.symm⟩
          · rcases hycase with ⟨hyid, rfl⟩ | ⟨hyid, rfl⟩
            · exfalso
              apply hguard
              have htarget : target = Status.active := by
                rw [hd2] at hbact
                exact hbact
              rw [Bool.and_eq_true]
              refine ⟨by rw [htarget]; exact beq_self_eq_true _, ?_⟩
              rw [activeCollisionOther, List.any_eq_true]
              refine ⟨_, hx, ?_⟩
              rw [Bool.and_eq_true]
              refine ⟨by simp [bne, hxid], ?_⟩
              simp only [collides, Bool.and_eq_true, beq_iff_eq]
              exact ⟨⟨haact, hsc⟩, hkey⟩
            · exact hwf.2 _ hx _ hy haact hbact hsc hkey

/-- Helper: the supersession operation preserves well-formedness. -/
theorem supersedeOp_WF :
    ∀ (σ : List Decision) (oldId newId : String) (f : SupersedeFields)
      (now : Nat) (σ2 : List Decision) (newD : Decision),
      supersedeOp σ oldId newId f now = Except.ok (σ2, newD) → WF σ → WF σ2 := by
  intro σ oldId newId f now σ2 newD h hwf
  unfold supersedeOp at h
  split at h
  · exact absurd h (by simp)
  next old hfind =>
    split at h
    next hid => exact absurd h (by simp)
    next hid =>
      have hopred := List.find?_some hfind
      rw [Bool.and_eq_true, beq_iff_eq, beq_iff_eq] at hopred
      obtain ⟨hoid, hostat⟩ := hopred
      split at h
      next e hcol =>
        exfalso
        dsimp only at h
        split at h <;> exact absurd h (by simp)
      next old2 hcol =>
        have hcol2 := hcol
        simp only [transition, allowedTransition, hostat, if_true] at hcol2
        injection hcol2 with hold2
        dsimp only at h
        split at h
        next hconf => exact absurd h (by simp)
        next hconf =>
          rw [Except.ok.injEq, Prod.mk.injEq] at h
          obtain ⟨hσ2, hnewD⟩ := h
          subst hσ2
          subst hnewD
          have hold2id : old2.id = oldId := by rw [← hold2]; exact hoid
          have hold2stat : old2.status = Status.superseded := by rw [← hold2]
          have hfresh : ∀ x, x ∈ σ → ¬ x.id = newId := by
            intro x hx hxid
            apply hid
            rw [idExists, List.any_eq_true]
            exact ⟨x, hx, beq_iff_eq.mpr hxid⟩
          constructor
          · rw [UniqueIds, List.map_append, List.nodup_append,
                replaceById_map_id σ oldId old2 hold2id]
            refine ⟨hwf.1, List.nodup_singleton _, ?_⟩
            intro a ha hb
            rw [List.map_singleton, List.mem_singleton] at hb
            obtain ⟨x, hx, hxa⟩ := List.mem_map.mp ha
            exact hfresh _ hx (hxa.trans hb)
          · intro d1 h1 d2 h2 ha1 ha2 hsc hkey
            rcases List.mem_append.mp h1 with h1l | h1r
            · rcases List.mem_append.mp h2 with h2l | h2r
              · obtain ⟨x, hx, hxcase⟩ := mem_replaceById h1l
                obtain ⟨y, hy, hycase⟩ := mem_replaceById h2l
                rcases hxcase with ⟨hxid, rfl⟩ | ⟨hxid, rfl⟩
                · exact absurd ha1 (by rw [hold2stat]; intro hh; cases hh)
                · rcases hycase with ⟨hyid, rfl⟩ | ⟨hyid, rfl⟩
                  · exact absurd ha2 (by rw [hold2stat]; intro hh; cases hh)
                  · exact hwf.2 _ hx _ hy ha1 ha2 hsc hkey
              · rcases List.mem_singleton.mp h2r with rfl
                exfalso
                obtain ⟨x, hx, hxcase⟩ := mem_replaceById h1l
                rcases hxcase with ⟨hxid, rfl⟩ | ⟨hxid, rfl⟩
                · exact absurd ha1 (by rw [hold2stat]; intro hh; cases hh)
                · apply hconf
                  rw [activeCollisionOther, List.any_eq_true]
                  refine ⟨_, hx, ?_⟩
                  rw [Bool.and_eq_true]
                  refine ⟨by simp [bne, hxid], ?_⟩
                  simp only [collides, Bool.and_eq_true, beq_iff_eq]
                  exact ⟨⟨ha1, hsc⟩, hkey⟩
            · rcases List.mem_singleton.mp h1r with rfl
              rcases List.mem_append.mp h2 with h2l | h2r
              · exfalso
                obtain ⟨y, hy, hycase⟩ := mem_replaceById h2l
                rcases hycase with ⟨hyid, rfl⟩ | ⟨hyid, rfl⟩
                · exact absurd ha2 (by rw [hold2stat]; intro hh; cases hh)
                · apply hconf
                  rw [activeCollisionOther, List.any_eq_true]
                  refine ⟨_, hy, ?_⟩
                  rw [Bool.and_eq_true]
                  refine ⟨by simp [bne, hyid], ?_⟩
                  simp only [collides, Bool.and_eq_true, beq_iff_eq]
                  exact ⟨⟨ha2, hsc.symm⟩, hkey.symm⟩
              · rcases List.mem_singleton.mp h2r with rfl
                rfl

/-- Helper: every store-boundary step preserves well-formedness. -/
theorem step_WF {σ σ2 : List Decision} (h : Step σ σ2) (hwf : WF σ) : WF σ2 := by
  cases h with
  | commit a1 a2 a3 a4 a5 a6 => exact commitOp_WF _ _ _ _ _ _ a6 hwf
  | lifecycle a1 a2 a3 a4 a5 a6 => exact transitionOp_WF _ _ _ _ _ _ a6 hwf
  | supersede_ok a1 a2 a3 a4 a5 a6 a7 => exact supersedeOp_WF _ _ _ _ _ _ _ a7 hwf
  | supersede_err a1 a2 a3 a4 a5 a6 => exact hwf

/-- Helper: every reachable store state is well-formed. -/
theorem reachable_WF {σ : List Decision} (h : Reachable σ) : WF σ := by
  induction h with
  | init => exact ⟨List.nodup_nil, fun d1 h1 => absurd h1 (List.not_mem_nil d1)⟩
  | step σ σ2 _ hstep ih => exact step_WF hstep ih

/-- C6: in every reachable store state there is at most one active decision
per (scope, binding key) pair; a commit colliding on an existing active
binding key is rejected with the store unchanged; and a successful
supersession leaves exactly one active decision carrying the new decision's
(scope, binding key). -/
theorem c6_unique_active_per_binding :
    (∀ σ : List Decision, Reachable σ →
      ∀ d1, d1 ∈ σ → ∀ d2, d2 ∈ σ →
        d1.status = Status.active → d2.status = Status.active →
        d1.enforcement.scope = d2.enforcement.scope →
        d1.bindingKey = d2.bindingKey → d1 = d2)
    ∧ (∀ (σ : List Decision) (newId : String) (f : CommitFields) (now : Nat),
        activeCollision σ f.scope f.bindingKey = true →
        (commitOp σ newId f now).1 = σ ∧ (commitOp σ newId f now).2.isSome = true)
    ∧ (∀ (σ : List Decision) (oldId newId : String) (f : SupersedeFields)
        (now : Nat) (σ2 : List Decision) (newD : Decision),
        supersedeOp σ oldId newId f now = Except.ok (σ2, newD) →
        (σ2.filter (fun d =>
          collides newD.enforcement.scope newD.bindingKey d)).length = 1) := by
  refine ⟨?_, ?_, ?_⟩
  · intro σ hreach
    exact (reachable_WF hreach).2
  · intro σ newId f now hcol
    unfold commitOp
    by_cases hid : idExists σ newId = true
    · rw [if_pos hid]
      exact ⟨rfl, rfl⟩
    · rw [if_neg hid, if_pos hcol]
      exact ⟨rfl, rfl⟩
  · intro σ oldId newId f now σ2 newD h
    unfold supersedeOp at h
    split at h
    · exact absurd h (by simp)
    next old hfind =>
      split at h
      next hid => exact absurd h (by simp)
      next hid =>
        have hopred := List.find?_some hfind
        rw [Bool.and_eq_true, beq_iff_eq, beq_iff_eq] at hopred
        obtain ⟨hoid, hostat⟩ := hopred
        split at h
        next e hcol =>
          exfalso
          dsimp only at h
          split at h <;> exact absurd h (by simp)
        next old2 hcol =>
          have hcol2 := hcol
          simp only [transition, allowedTransition, hostat, if_true] at hcol2
          injection hcol2 with hold2
          dsimp only at h
          split at h
          next hconf => exact absurd h (by simp)
          next hconf =>
            rw [Except.ok.injEq, Prod.mk.injEq] at h
            obtain ⟨hσ2, hnewD⟩ := h
            subst hσ2
            subst hnewD
            rw [List.filter_append]
            have hrepl : (replaceById σ oldId old2).filter (fun d =>
                collides (f.scope.getD old.enforcement.scope)
                  (f.bindingKey.getD old.bindingKey) d) = [] := by
              rw [List.filter_eq_nil_iff]
              intro a ha hcold
              obtain ⟨x, hx, hxcase⟩ := mem_replaceById ha
              rcases hxcase with ⟨hxid, rfl⟩ | ⟨hxid, rfl⟩
              · rw [collides, ← hold2] at hcold
                simp at hcold
              · apply hconf
                rw [activeCollisionOther, List.any_eq_true]
                refine ⟨_, hx, ?_⟩
                rw [Bool.and_eq_true]
                exact ⟨by simp [bne, hxid], hcold⟩
            rw [hrepl]
            simp [collides]

/-- The configuration committed on top of `σOld` in the witness runs. -/
def c6Collider : CommitFields :=
  { title := "Use MySQL", scope := "repo:acme",
    decision_type := DType.preference, bindingKey := "database choice" }

/-- C6 witness: the one-decision store is reachable and satisfies
uniqueness; a colliding commit is rejected; the concrete supersession
leaves exactly one active decision for its binding key. -/
theorem c6_unique_active_per_binding_witness :
    (mkActive "dec_old" oldFields 0) = (mkActive "dec_old" oldFields 0)
    ∧ (commitOp σOld "dec_dup" c6Collider 7).1 = σOld
    ∧ (commitOp σOld "dec_dup" c6Collider 7).2.isSome = true
    ∧ ([c5Old2, c5NewD].filter (fun d =>
        collides c5NewD.enforcement.scope c5NewD.bindingKey d)).length = 1 := by
  have hreach : Reachable σOld :=
    Reachable.step [] σOld Reachable.init
      (Step.commit [] "dec_old" oldFields 0 σOld none rfl)
  have h2 := c6_unique_active_per_binding.2.1 σOld "dec_dup" c6Collider 7 (by decide)
  refine ⟨?_, h2.1, h2.2, ?_⟩
  · exact c6_unique_active_per_binding.1 σOld hreach
      (mkActive "dec_old" oldFields 0) (by decide)
      (mkActive "dec_old" oldFields 0) (by decide) (by decide) (by decide) rfl rfl
  · exact c6_unique_active_per_binding.2.2 σOld "dec_old" "dec_new"
      { title := "v2" } 5 [c5Old2, c5NewD] c5NewD rfl

/-- The identity-bearing fields of a stored decision frozen across store
operations (id, scope, decision type, binding key). -/
def SameCore (x y : Decision) : Prop :=
  y.id = x.id ∧ y.enforcement.scope = x.enforcement.scope
    ∧ y.enforcement.decision_type = x.enforcement.decision_type
    ∧ y.bindingKey = x.bindingKey

/-- Helper: one step never deletes a record and never changes its frozen
fields — only status, version and timestamps move. -/
theorem step_preserves_core {σ σ2 : List Decision} (h : Step σ σ2) (hwf : WF σ) :
    ∀ x, x ∈ σ → ∃ y, y ∈ σ2 ∧ SameCore x y := by
  cases h with
  | commit a1 a2 a3 a4 a5 a6 =>
    intro x hx
    unfold commitOp at a6
    split at a6
    next =>
      rw [Prod.mk.injEq] at a6
      obtain ⟨h1, -⟩ := a6
      subst h1
      exact ⟨x, hx, rfl, rfl, rfl, rfl⟩
    next =>
      split at a6
      next =>
        rw [Prod.mk.injEq] at a6
        obtain ⟨h1, -⟩ := a6
        subst h1
        exact ⟨x, hx, rfl, rfl, rfl, rfl⟩
      next =>
        rw [Prod.mk.injEq] at a6
        obtain ⟨h1, -⟩ := a6
        subst h1
        exact ⟨x, List.mem_append_left _ hx, rfl, rfl, rfl, rfl⟩
  | lifecycle a1 a2 a3 a4 a5 a6 =>
    intro x hx
    unfold transitionOp at a6
    split at a6
    next =>
      rw [Prod.mk.injEq] at a6
      obtain ⟨h1, -⟩ := a6
      subst h1
      exact ⟨x, hx, rfl, rfl, rfl, rfl⟩
    next d hfind =>
      split at a6
      next =>
        rw [Prod.mk.injEq] at a6
        obtain ⟨h1, -⟩ := a6
        subst h1
        exact ⟨x, hx, rfl, rfl, rfl, rfl⟩
      next d2 htr =>
        split at a6
        next =>
          rw [Prod.mk.injEq] at a6
          obtain ⟨h1, -⟩ := a6
          subst h1
          exact ⟨x, hx, rfl, rfl, rfl, rfl⟩
        next =>
          rw [Prod.mk.injEq] at a6
          obtain ⟨h1, -⟩ := a6
          subst h1
          have hd2 : d2 = { d with status := a2, version := d.version + 1, updated_at := a3 } := by
            unfold transition at htr
            split at htr
            · injection htr with hh
              exact hh.symm
            · exact absurd htr (by simp)
          by_cases hxid : (x.id == a1) = true
          · have hdid : d.id = a1 := by
              have hp := List.find?_some hfind
              rwa [beq_iff_eq] at hp
            have hxd : x = d :=
              eq_of_mem_of_id_eq hwf.1 x hx d (List.mem_of_find?_eq_some hfind)
                ((beq_iff_eq.mp hxid).trans hdid.symm)
            refine ⟨d2, ?_, ?_⟩
            · rw [replaceById]
              exact List.mem_map.mpr ⟨x, hx, by rw [if_pos hxid]⟩
            · subst hxd
              rw [hd2]
              exact ⟨rfl, rfl, rfl, rfl⟩
          · refine ⟨x, ?_, rfl, rfl, rfl, rfl⟩
            rw [replaceById]
            exact List.mem_map.mpr ⟨x, hx, by rw [if_neg hxid]⟩
  | supersede_ok a1 a2 a3 a4 a5 a6 a7 =>
    intro x hx
    unfold supersedeOp at a7
    split at a7
    · exact absurd a7 (by simp)
    next old hfind =>
      split at a7
      next => exact absurd a7 (by simp)
      next hid =>
        have hopred := List.find?_some hfind
        rw [Bool.and_eq_true, beq_iff_eq, beq_iff_eq] at hopred
        obtain ⟨hoid, hostat⟩ := hopred
        split at a7
        next e hcol =>
          exfalso
          dsimp only at a7
          split at a7 <;> exact absurd a7 (by simp)
        next old2 hcol =>
          have hcol2 := hcol
          simp only [transition, allowedTransition, hostat, if_true] at hcol2
          injection hcol2 with hold2
          dsimp only at a7
          split at a7
          next => exact absurd a7 (by simp)
          next =>
            rw [Except.ok.injEq, Prod.mk.injEq] at a7
            obtain ⟨hσ2, -⟩ := a7
            subst hσ2
            by_cases hxid : (x.id == a1) = true
            · have hxold : x = old :=
                eq_of_mem_of_id_eq hwf.1 x hx old (List.mem_of_find?_eq_some hfind)
                  ((beq_iff_eq.mp hxid).trans hoid.symm)
              refine ⟨old2, ?_, ?_⟩
              · refine List.mem_append_left _ ?_
                rw [replaceById]
                exact List.mem_map.mpr ⟨x, hx, by rw [if_pos hxid]⟩
              · subst hxold
                rw [← hold2]
                exact ⟨rfl, rfl, rfl, rfl⟩
            · refine ⟨x, ?_, rfl, rfl, rfl, rfl⟩
              refine List.mem_append_left _ ?_
              rw [replaceById]
              exact List.mem_map.mpr ⟨x, hx, by rw [if_neg hxid]⟩
  | supersede_err a1 a2 a3 a4 a5 a6 =>
    intro x hx
    exact ⟨x, hx, rfl, rfl, rfl, rfl⟩

/-- Helper: steps preserve reachability. -/
theorem steps_reachable {σ σ2 : List Decision} (h : Steps σ σ2)
    (hr : Reachable σ) : Reachable σ2 := by
  induction h with
  | refl => exact hr
  | tail σb σc hab hbc ih => exact Reachable.step σb σc ih hbc

/-- Helper: record survival and frozen fields across any step sequence. -/
theorem steps_preserves_core {σ σ2 : List Decision} (h : Steps σ σ2)
    (hr : Reachable σ) :
    ∀ x, x ∈ σ → ∃ y, y ∈ σ2 ∧ SameCore x y := by
  induction h with
  | refl => exact fun x hx => ⟨x, hx, rfl, rfl, rfl, rfl⟩
  | tail σb σc hab hbc ih =>
    intro x hx
    obtain ⟨y, hy, hc1⟩ := ih x hx
    obtain ⟨z, hz, hc2⟩ :=
      step_preserves_core hbc (reachable_WF (steps_reachable hab hr)) y hy
    exact ⟨z, hz, hc2.1.trans hc1.1, hc2.2.1.trans hc1.2.1,
      hc2.2.2.1.trans hc1.2.2.1, hc2.2.2.2.trans hc1.2.2.2⟩

/-- Helper: the ranking pick returns a member of its input. -/
theorem pickBest_mem : ∀ (l : List Decision) (d : Decision),
    pickBest l = some d → d ∈ l := by
  intro l
  induction l with
  | nil =>
    intro d h
    simp [pickBest] at h
  | cons a l ih =>
    intro d h
    unfold pickBest at h
    split at h
    next =>
      injection h with h
      exact h ▸ List.mem_cons_self a l
    next b hb =>
      split at h
      · injection h with h
        exact List.mem_cons_of_mem a (ih d (h ▸ hb))
      · injection h with h
        exact h ▸ List.mem_cons_self a l

/-- Helper: the ranking pick of a nonempty list exists. -/
theorem pickBest_of_ne_nil : ∀ l : List Decision, l ≠ [] →
    ∃ d, pickBest l = some d := by
  intro l h
  cases l with
  | nil => exact absurd rfl h
  | cons a l =>
    unfold pickBest
    cases hpb : pickBest l with
    | none => exact ⟨a, rfl⟩
    | some b =>
      by_cases hr : outranks b a = true
      · exact ⟨b, by simp [hr]⟩
      · exact ⟨a, by simp [hr]⟩

/-- C7 (amended): once a (query, scope) pair has resolved to an active
decision, every later resolve of the identical pair still returns status
`resolved` — never `needs_clarification` — in every state reachable while
that decision stays active; the matched id is additionally unchanged
whenever no other active decision matches the same binding key under that
scope (a later, more specific commit with the same binding key may win
instead). -/
theorem c7_sticky_resolution :
    ∀ (q s : String) (c : List String) (σ σ2 : List Decision) (i : String),
      Reachable σ → Steps σ σ2 →
      (resolveOp q s c σ).status = RStatus.resolved →
      (resolveOp q s c σ).matched_decision_id = some i →
      (∃ r, r ∈ σ2 ∧ r.id = i ∧ r.status = Status.active) →
      (resolveOp q s c σ2).status = RStatus.resolved
      ∧ ((∀ r, r ∈ σ2 → resolveMatch q s r = true → r.id = i) →
          (resolveOp q s c σ2).matched_decision_id = some i) := by
  intro q s c σ σ2 i hreach hsteps hst hmid hactive
  unfold resolveOp at hst hmid
  split at hst
  case h_2 => exact RStatus.noConfusion hst
  case h_1 d0 hpb =>
    rw [hpb] at hmid
    simp only [Option.some.injEq] at hmid
    have hd0f : d0 ∈ σ.filter (resolveMatch q s) := pickBest_mem _ d0 hpb
    rw [List.mem_filter] at hd0f
    obtain ⟨hd0σ, hd0m⟩ := hd0f
    obtain ⟨y, hy, hycore⟩ := steps_preserves_core hsteps hreach d0 hd0σ
    obtain ⟨r, hr, hrid, hract⟩ := hactive
    have hwf2 : WF σ2 := reachable_WF (steps_reachable hsteps hreach)
    have hyr : y = r :=
      eq_of_mem_of_id_eq hwf2.1 y hy r hr (hycore.1.trans (hmid ▸ hrid.symm))
    subst hyr
    simp only [resolveMatch, Bool.and_eq_true, beq_iff_eq] at hd0m
    obtain ⟨⟨⟨-, hd0ty⟩, hd0sc⟩, hd0key⟩ := hd0m
    have hrmatch : resolveMatch q s y = true := by
      simp only [resolveMatch, Bool.and_eq_true, beq_iff_eq]
      exact ⟨⟨⟨hract, hycore.2.2.1.trans hd0ty⟩, hycore.2.1 ▸ hd0sc⟩,
        hycore.2.2.2.trans hd0key⟩
    have hyf : y ∈ σ2.filter (resolveMatch q s) :=
      List.mem_filter.mpr ⟨hr, hrmatch⟩
    obtain ⟨w, hw⟩ :=
      pickBest_of_ne_nil (σ2.filter (resolveMatch q s)) (List.ne_nil_of_mem hyf)
    constructor
    · unfold resolveOp
      rw [hw]
    · intro hall
      unfold resolveOp
      rw [hw]
      have hwf : w ∈ σ2.filter (resolveMatch q s) := pickBest_mem _ w hw
      rw [List.mem_filter] at hwf
      simp only [Option.some.injEq]
      exact hall w hwf.1 hwf.2

/-- Commit fields of the `production-ready` interpretation decision. -/
def prodFields : CommitFields :=
  { title := "production-ready means the v2 checklist",
    scope := "repo:acme", decision_type := DType.interpretation,
    bindingKey := "production-ready" }

/-- The store after committing the interpretation decision. -/
def σPR : List Decision := [mkActive "dec_interp" prodFields 0]

/-- C7 witness: with no intervening operation, a second identical resolve
stays `resolved` with the same matched id (the §8 sticky-resolution
scenario). -/
theorem c7_sticky_resolution_witness :
    (resolveOp "production-ready" "repo:acme" [] σPR).status = RStatus.resolved
    ∧ (resolveOp "production-ready" "repo:acme" [] σPR).matched_decision_id
        = some "dec_interp" := by
  have hreach : Reachable σPR :=
    Reachable.step [] σPR Reachable.init
      (Step.commit [] "dec_interp" prodFields 0 σPR none rfl)
  have h := c7_sticky_resolution "production-ready" "repo:acme" [] σPR σPR
    "dec_interp" hreach (Steps.refl σPR) (by decide) (by decide) (by decide)
  exact ⟨h.1, h.2 (by decide)⟩

/-- Commit fields of a later, more specific interpretation with the same
binding key. -/
def narrowFields : CommitFields :=
  { title := "production-ready means the v3 checklist",
    scope := "repo:acme/folder:src", decision_type := DType.interpretation,
    bindingKey := "production-ready" }

/-- The store after additionally committing the more specific decision. -/
def σPR2 : List Decision := σPR ++ [mkActive "dec_narrow" narrowFields 1]

/-- C7 counterexample: the original decision is still active in a reachable
later state, yet the identical (query, scope) pair now resolves to a
different matched_decision_id — the more specific same-key decision wins. -/
theorem c7_sticky_resolution_counterexample :
    Reachable σPR ∧ Steps σPR σPR2
    ∧ (resolveOp "production-ready" "repo:acme/folder:src" [] σPR).status
        = RStatus.resolved
    ∧ (resolveOp "production-ready" "repo:acme/folder:src" [] σPR).matched_decision_id
        = some "dec_interp"
    ∧ (∃ r, r ∈ σPR2 ∧ r.id = "dec_interp" ∧ r.status = Status.active)
    ∧ (resolveOp "production-ready" "repo:acme/folder:src" [] σPR2).matched_decision_id
        = some "dec_narrow"
    ∧ "dec_narrow" ≠ "dec_interp" := by
  refine ⟨?_, ?_, by decide, by decide, by decide, by decide, by decide⟩
  · exact Reachable.step [] σPR Reachable.init
      (Step.commit [] "dec_interp" prodFields 0 σPR none rfl)
  · exact Steps.tail σPR σPR σPR2 (Steps.refl σPR)
      (Step.commit σPR "dec_narrow" narrowFields 1 σPR2 none rfl)

end Continuum
